import Mathlib

/-!
Verification of the number-theoretic kernel and attack engine of an RSA
research toolkit.  Python integers are modelled as `ℤ` (or `ℕ` where the
source values are provably non-negative); Python's floor division `//` and
floor modulus `%` on possibly-negative integers are `Int.fdiv` / `Int.fmod`.
Randomness (Miller-Rabin witness draws) is modelled as an explicit list of
bases; the floating-point seed of `integer_nth_root` is modelled as an
arbitrary natural-number oracle, so theorems quantify over every value the
float estimate could take.
-/

namespace RSAResearch

/-- Bound used for the termination of Euclidean recursions over `ℤ` with
floor modulus: the floor remainder is strictly smaller than the divisor in
absolute value. -/
theorem natAbs_fmod_lt (a : ℤ) {b : ℤ} (hb : b ≠ 0) :
    (Int.fmod a b).natAbs < b.natAbs := by
  obtain ⟨n⟩ | ⟨n⟩ := b
  · rw [Int.ofNat_eq_coe] at hb ⊢
    have hn : 0 < (n : ℤ) := by
      rcases Nat.eq_zero_or_pos n with h | h
      · subst h; simp at hb
      · exact_mod_cast h
    rw [Int.fmod_eq_emod a (le_of_lt hn)]
    have h1 : 0 ≤ a % (n : ℤ) := Int.emod_nonneg a (by omega)
    have h2 : a % (n : ℤ) < n := Int.emod_lt_of_pos a hn
    omega
  · obtain ⟨m⟩ | ⟨m⟩ := a
    · cases m with
      | zero => simp [Int.fmod]
      | succ m =>
        have hmod : m % (n + 1) < n + 1 := Nat.mod_lt m (Nat.succ_pos n)
        show (Int.subNatNat (m % (n + 1)) n).natAbs < (Int.negSucc n).natAbs
        rw [Int.subNatNat_eq_coe]
        simp only [Int.natAbs_negSucc]
        omega
    · show (-(Int.ofNat ((m + 1) % (n + 1)))).natAbs < (Int.negSucc n).natAbs
      have hmod : (m + 1) % (n + 1) < n + 1 := Nat.mod_lt _ (Nat.succ_pos n)
      simp only [Int.ofNat_eq_coe, Int.natAbs_neg, Int.natAbs_negSucc,
        Int.natAbs_ofNat]
      omega

/-- `utils.gcd`: iterative Euclidean algorithm,
`while b: a, b = b, a % b; return a`, with Python's floor modulus. -/
def gcd (a b : ℤ) : ℤ :=
  if b = 0 then a else gcd b (Int.fmod a b)
termination_by b.natAbs
decreasing_by exact natAbs_fmod_lt a (by assumption)

/-- `utils.extended_gcd`: recursive extended Euclid.
`if a == 0: return b, 0, 1; g, x, y = extended_gcd(b % a, a);
 return g, y - (b // a) * x, x`. -/
def extended_gcd (a b : ℤ) : ℤ × ℤ × ℤ :=
  if a = 0 then (b, 0, 1)
  else
    let r := extended_gcd (Int.fmod b a) a
    (r.1, r.2.2 - (Int.fdiv b a) * r.2.1, r.2.1)
termination_by a.natAbs
decreasing_by exact natAbs_fmod_lt b (by assumption)

/-- `utils.modinv`: `g, x, _ = extended_gcd(a % m, m); if g != 1: raise
ValueError; return x % m`.  The `ValueError` branch is `none`. -/
def modinv (a m : ℤ) : Option ℤ :=
  let r := extended_gcd (Int.fmod a m) m
  if r.1 = 1 then some (Int.fmod r.2.1 m) else none

/-! ### Integer square and k-th roots (`utils.isqrt`, `utils.integer_nth_root`) -/

/-- `utils.isqrt`: floor square root via `math.isqrt`; the `ValueError` for
negative input is outside the `ℕ` domain. -/
def isqrt (n : ℕ) : ℕ := Nat.sqrt n

/-- Binary-search loop of `utils.integer_nth_root`:
`while lo < hi: mid = (lo + hi + 1) // 2; if mid**k <= n: lo = mid
 else: hi = mid - 1`. -/
def nthRootLoop (k n lo hi : ℕ) : ℕ :=
  if lo < hi then
    let mid := (lo + hi + 1) / 2
    if mid ^ k ≤ n then nthRootLoop k n mid hi else nthRootLoop k n lo (mid - 1)
  else lo
termination_by hi - lo
decreasing_by
  · omega
  · omega

/-- `utils.integer_nth_root`.  The float estimate
`int(round(n ** (1.0 / k)))` is modelled as an arbitrary oracle `xhat`;
all results below hold for every oracle value.  `none` is the `ValueError`
for `k <= 0` (negative `n` is outside the `ℕ` domain). -/
def integer_nth_root (xhat n k : ℕ) : Option (ℕ × Bool) :=
  if k = 0 then none
  else if n = 0 then some (0, true)
  else if k = 1 then some (n, true)
  else
    match [xhat - 2, xhat - 1, xhat, xhat + 1, xhat + 2].find?
        (fun c => decide (0 < c ∧ c ^ k = n)) with
    | some c => some (c, true)
    | none =>
      let hi := min n (1 <<< ((Nat.size n + k - 1) / k + 1))
      let root := nthRootLoop k n 1 hi
      some (root, decide (root ^ k = n))

/-! ### Continued fractions (`utils.continued_fraction`, `utils.convergents`) -/

/-- `utils.continued_fraction`: the generator's output as a list.
`while den: q = num // den; yield q; num, den = den, num - q * den`
(the update equals `num % den`). -/
def continued_fraction (num den : ℕ) : List ℕ :=
  if den = 0 then [] else num / den :: continued_fraction den (num % den)
termination_by den
decreasing_by exact Nat.mod_lt _ (by omega)

/-- Convergent recurrence of `utils.convergents`, carrying
`(p_prev, p_curr)` and `(q_prev, q_curr)`. -/
def convergentsAux : List ℕ → ℕ × ℕ → ℕ × ℕ → List (ℕ × ℕ)
  | [], _, _ => []
  | a :: rest, (pprev, pcurr), (qprev, qcurr) =>
    (a * pcurr + pprev, a * qcurr + qprev) ::
      convergentsAux rest (pcurr, a * pcurr + pprev) (qcurr, a * qcurr + qprev)

/-- `utils.convergents`: the `(p, q)` convergent pairs of `num/den`. -/
def convergents (num den : ℕ) : List (ℕ × ℕ) :=
  convergentsAux (continued_fraction num den) (0, 1) (1, 0)

/-! ### Miller-Rabin (`utils.is_probable_prime`) -/

/-- `while d % 2 == 0: r += 1; d //= 2`, started at `(0, n - 1)`.
The `0 < d` guard is needed for termination in Lean; the source is only
ever called with `d = n - 1 ≥ 4` where it is vacuous. -/
def mrDecomp (r d : ℕ) : ℕ × ℕ :=
  if d % 2 = 0 ∧ 0 < d then mrDecomp (r + 1) (d / 2) else (r, d)
termination_by d
decreasing_by omega

/-- Inner squaring loop of a Miller-Rabin round:
`for _ in range(r - 1): x = pow(x, 2, n); if x == n - 1: break`;
`true` is the `break` (witness passes), `false` the `for ... else:
return False` verdict. -/
def mrInner (n : ℕ) : ℕ → ℕ → Bool
  | 0, _ => false
  | k + 1, x =>
    let x2 := x ^ 2 % n
    if x2 = n - 1 then true else mrInner n k x2

/-- One Miller-Rabin round for the base `a`:
`x = pow(a, d, n); if x == 1 or x == n - 1: continue; <inner loop>`. -/
def mrRound (n d r a : ℕ) : Bool :=
  let x := a ^ d % n
  if x = 1 ∨ x = n - 1 then true else mrInner n (r - 1) x

/-- `utils.is_probable_prime`, with the `rounds` random draws
`a = random.randrange(2, n - 1)` supplied as the explicit list `bases`. -/
def is_probable_prime (bases : List ℕ) (n : ℕ) : Bool :=
  if n < 2 then false
  else if n = 2 ∨ n = 3 then true
  else if n % 2 = 0 then false
  else
    let rd := mrDecomp 0 (n - 1)
    bases.all fun a => mrRound n rd.2 rd.1 a

/-! ### Key model (`rsa_core.RSAKey`, `encrypt`, `decrypt`) -/

/-- `rsa_core.RSAKey`.  The toolkit only constructs non-negative key
material, so the fields are naturals; optional private fields are
`Option`. -/
structure RSAKey where
  n : ℕ
  e : ℕ
  d : Option ℕ := none
  p : Option ℕ := none
  q : Option ℕ := none

/-- `rsa_core.encrypt`: `pow(message, key.e, key.n)` under the range guard
`0 <= message < key.n`; `none` is the `ValueError`. -/
def encrypt (message : ℕ) (key : RSAKey) : Option ℕ :=
  if message < key.n then some (message ^ key.e % key.n) else none

/-- `rsa_core.decrypt`: `pow(ciphertext, key.d, key.n)`, requiring private
material and the range guard; `none` is the `ValueError`. -/
def decrypt (ciphertext : ℕ) (key : RSAKey) : Option ℕ :=
  match key.d with
  | none => none
  | some d => if ciphertext < key.n then some (ciphertext ^ d % key.n) else none

/-! ### Wiener's attack (`attacks.wiener.wiener_attack`) -/

/-- The body of `wiener_attack`'s convergent loop for one convergent
`(k, d)`: `some d` exactly when the source would `return d`, `none` when
it `continue`s.  All intermediate arithmetic is over `ℤ`, as in the
source (`phi`, `s = n - phi + 1` and the discriminant can be negative). -/
def wienerCheck (n e : ℕ) (kd : ℕ × ℕ) : Option ℕ :=
  let k := kd.1
  let d := kd.2
  if k = 0 then none
  else if Int.fmod ((e : ℤ) * (d : ℤ) - 1) k ≠ 0 then none
  else
    let phi := Int.fdiv ((e : ℤ) * (d : ℤ) - 1) k
    let s : ℤ := (n : ℤ) - phi + 1
    let disc := s * s - 4 * (n : ℤ)
    if disc < 0 then none
    else
      let b : ℤ := (isqrt disc.toNat : ℤ)
      if b * b ≠ disc then none
      else
        let p := Int.fdiv (s + b) 2
        let q := Int.fdiv (s - b) 2
        if p * q = (n : ℤ) ∧ 1 < p ∧ 1 < q then some d else none

/-- `attacks.wiener.wiener_attack`: first convergent of `e/n` passing all
consistency checks yields the candidate `d`. -/
def wiener_attack (key : RSAKey) : Option ℕ :=
  (convergents key.e key.n).findSome? (wienerCheck key.n key.e)

/-! ### Fermat factorization (`attacks.fermat.fermat_factor`) -/

/-- Search loop of `fermat_factor` (`for _ in range(max_steps)`).
On every reachable iteration `n < a * a` (entry is `a = isqrt n + 1` with
`n` not a perfect square), so the truncated subtraction `a * a - n`
agrees with the source's exact integer subtraction. -/
def fermatLoop (n : ℕ) : ℕ → ℕ → Option (ℕ × ℕ)
  | 0, _ => none
  | steps + 1, a =>
    let b2 := a * a - n
    let b := isqrt b2
    if b * b = b2 then
      let p := a - b
      let q := a + b
      if 1 < p ∧ q < n then some (if p ≤ q then (p, q) else (q, p))
      else fermatLoop n steps (a + 1)
    else fermatLoop n steps (a + 1)

/-- `attacks.fermat.fermat_factor`; `Except.error` is the `ValueError`
for `n <= 1`, `Except.ok none` the step-budget exhaustion. -/
def fermat_factor (n max_steps : ℕ) : Except Unit (Option (ℕ × ℕ)) :=
  if n ≤ 1 then .error ()
  else if n % 2 = 0 then .ok (some (2, n / 2))
  else
    let a := isqrt n
    if a * a = n then .ok (some (a, a))
    else .ok (fermatLoop n max_steps (a + 1))

/-! ### Pollard's rho (`attacks.pollard_rho.pollard_rho`) -/

/-- `f(x) = (x*x + c) % n`. -/
def pollardF (n c x : ℕ) : ℕ := (x * x + c) % n

/-- Floyd loop `while d == 1 and steps < max_steps: x = f(x); y = f(f(y));
d = gcd(abs(x - y), n)`; returns the final `d`. -/
def pollardLoop (n c : ℕ) : ℕ → ℕ → ℕ → ℕ → ℕ
  | 0, _, _, d => d
  | fuel + 1, x, y, d =>
    if d = 1 then
      pollardLoop n c fuel (pollardF n c x) (pollardF n c (pollardF n c y))
        (Nat.gcd (Nat.dist (pollardF n c x) (pollardF n c (pollardF n c y))) n)
    else d

/-- Retry loop `for c in range(1, 20)` with fresh state and budget. -/
def pollardRetry (n max_steps : ℕ) : List ℕ → Option ℕ
  | [] => none
  | c :: cs =>
    let d := pollardLoop n c max_steps 2 2 1
    if 1 < d ∧ d < n then some d else pollardRetry n max_steps cs

/-- `attacks.pollard_rho.pollard_rho`; the Miller-Rabin pre-check's random
draws are the `bases` parameter; `Except.error` is the `ValueError` for
`n <= 1`. -/
def pollard_rho (bases : List ℕ) (n max_steps : ℕ) : Except Unit (Option ℕ) :=
  if n ≤ 1 then .error ()
  else if n % 2 = 0 then .ok (some 2)
  else if is_probable_prime bases n then .ok none
  else
    let d := pollardLoop n 1 max_steps 2 2 1
    if 1 < d ∧ d < n then .ok (some d)
    else .ok (pollardRetry n max_steps ((List.range 19).map (· + 1)))

/-! ### Common-modulus attack (`attacks.common_modulus`) -/

/-- `attacks.common_modulus.modinv_int` (same body as `utils.modinv`). -/
def modinv_int (a m : ℤ) : Option ℤ :=
  let r := extended_gcd (Int.fmod a m) m
  if r.1 = 1 then some (Int.fmod r.2.1 m) else none

/-- Python's three-argument `pow` with a non-negative exponent. -/
def powmod (x : ℤ) (e : ℕ) (n : ℤ) : ℤ := Int.fmod (x ^ e) n

/-- One of `c1_term` / `c2_term` in `common_modulus_attack`:
`pow(modinv_int(c, n), -a, n)` when `a < 0`, else `pow(c, a, n)`;
`Except.error` is the `ValueError` from a failing `modinv_int`. -/
def cmTerm (n c a : ℤ) : Except Unit ℤ :=
  if a < 0 then
    match modinv_int c n with
    | none => .error ()
    | some v => .ok (powmod v (-a).toNat n)
  else .ok (powmod c a.toNat n)

/-- `attacks.common_modulus.common_modulus_attack`; `Except.ok none` is the
non-coprime absence result. -/
def common_modulus_attack (n e1 e2 c1 c2 : ℤ) : Except Unit (Option ℤ) :=
  if gcd e1 e2 ≠ 1 then .ok none
  else
    let r := extended_gcd e1 e2
    match cmTerm n c1 r.2.1, cmTerm n c2 r.2.2 with
    | .ok t1, .ok t2 => .ok (some (Int.fmod (t1 * t2) n))
    | _, _ => .error ()

/-! ### Small-exponent broadcast attack (`attacks.small_exponent`) -/

/-- Summation `x += r * Mi * modinv(Mi, m)` of `_crt`; `none` propagates a
failing `modinv`. -/
def crtSum (M : ℤ) : List (ℤ × ℤ) → Option ℤ
  | [] => some 0
  | (r, m) :: rest =>
    match modinv (Int.fdiv M m) m, crtSum M rest with
    | some inv, some s => some (r * Int.fdiv M m * inv + s)
    | _, _ => none

/-- `attacks.small_exponent._crt` (Lean identifiers cannot begin with an
underscore). -/
def crt (remainders moduli : List ℤ) : Option ℤ :=
  let M := moduli.foldl (· * ·) 1
  (crtSum M (remainders.zip moduli)).map fun x => Int.fmod x M

/-- The `for i in range(e): for j in range(i+1, e)` pairwise-coprimality
check over the first `e` moduli, with the source's `gcd`. -/
def pairwiseCoprimeFirst (ciphertexts : List (ℤ × ℤ)) (e : ℕ) : Bool :=
  (List.range e).all fun i =>
    (List.range e).all fun j =>
      !(decide (i < j)) ||
        decide (gcd (ciphertexts.getD i (0, 0)).1 (ciphertexts.getD j (0, 0)).1 = 1)

/-- `attacks.small_exponent.small_exponent_attack`; `Except.error` is
`ValueError` (too few ciphertexts, non-coprime moduli, a failing `modinv`
inside `_crt`, or a negative CRT value reaching `integer_nth_root`),
`Except.ok none` the inexact-root absence.  `xhat` seeds the float
estimate of `integer_nth_root`. -/
def small_exponent_attack (xhat : ℕ) (ciphertexts : List (ℤ × ℤ)) (e : ℕ) :
    Except Unit (Option ℤ) :=
  if ciphertexts.length < e then .error ()
  else if ¬ pairwiseCoprimeFirst ciphertexts e then .error ()
  else
    match crt ((ciphertexts.take e).map Prod.snd)
        ((ciphertexts.take e).map Prod.fst) with
    | none => .error ()
    | some x =>
      if x < 0 then .error ()
      else
        match integer_nth_root xhat x.toNat e with
        | none => .error ()
        | some (m, ex) => .ok (if ex then some (m : ℤ) else none)

/-! ## Theorems -/

/-! ### Correctness of the Euclidean helpers -/

theorem gcd_fmod_left (a b : ℤ) : Int.gcd (Int.fmod b a) a = Int.gcd b a := by
  have h : Int.fmod b a = b - a * Int.fdiv b a := Int.fmod_def b a
  have h3 : Int.fmod b a + a * Int.fdiv b a = b := by rw [h]; ring
  apply Nat.dvd_antisymm
  · apply Int.natCast_dvd_natCast.mp
    apply Int.dvd_gcd
    · have h1 : (↑(Int.gcd (Int.fmod b a) a) : ℤ) ∣ Int.fmod b a :=
        Int.gcd_dvd_left
      have h2 : (↑(Int.gcd (Int.fmod b a) a) : ℤ) ∣ a := Int.gcd_dvd_right
      have := dvd_add h1 (h2.mul_right (Int.fdiv b a))
      rwa [h3] at this
    · exact Int.gcd_dvd_right
  · apply Int.natCast_dvd_natCast.mp
    apply Int.dvd_gcd
    · rw [h]
      exact dvd_sub Int.gcd_dvd_left (Int.gcd_dvd_right.mul_right _)
    · exact Int.gcd_dvd_right

theorem gcd_fmod_swap (a b : ℤ) : Int.gcd b (Int.fmod a b) = Int.gcd a b := by
  rw [Int.gcd_comm, gcd_fmod_left]

theorem gcd_natAbs (a b : ℤ) : (gcd a b).natAbs = Int.gcd a b := by
  induction a, b using gcd.induct with
  | case1 a =>
    rw [gcd]; simp [Int.gcd_zero_right]
  | case2 a b hb ih =>
    rw [gcd, if_neg hb, ih, gcd_fmod_swap]

theorem gcd_eq_of_nonneg {a b : ℤ} (ha : 0 ≤ a) (hb : 0 ≤ b) :
    gcd a b = (Int.gcd a b : ℤ) := by
  induction a, b using gcd.induct with
  | case1 a =>
    rw [gcd]; simp [Int.gcd_zero_right, Int.natAbs_of_nonneg ha]
  | case2 a b h ih =>
    rw [gcd, if_neg h]
    have hbpos : 0 < b := lt_of_le_of_ne hb (Ne.symm h)
    rw [ih hb (Int.fmod_nonneg' a hbpos), gcd_fmod_swap]

theorem gcd_zero_left_eq (x : ℤ) : gcd 0 x = x := by
  by_cases hx : x = 0
  · subst hx; rw [gcd]; simp
  · rw [gcd, if_neg hx, Int.zero_fmod, gcd]; simp

theorem extended_gcd_bezout (a b : ℤ) :
    a * (extended_gcd a b).2.1 + b * (extended_gcd a b).2.2 =
      (extended_gcd a b).1 := by
  induction a, b using extended_gcd.induct with
  | case1 b => rw [extended_gcd]; simp
  | case2 a b h ih =>
    rw [extended_gcd, if_neg h]
    simp only
    have hm : Int.fmod b a = b - a * Int.fdiv b a := Int.fmod_def b a
    linear_combination ih - (extended_gcd (Int.fmod b a) a).2.1 * hm

theorem extended_gcd_fst_natAbs (a b : ℤ) :
    (extended_gcd a b).1.natAbs = Int.gcd a b := by
  induction a, b using extended_gcd.induct with
  | case1 b => rw [extended_gcd]; simp [Int.gcd_zero_left]
  | case2 a b h ih =>
    rw [extended_gcd, if_neg h]
    simp only
    rw [ih, gcd_fmod_left, Int.gcd_comm]

theorem extended_gcd_fst_of_nonneg {a b : ℤ} (ha : 0 ≤ a) (hb : 0 ≤ b) :
    (extended_gcd a b).1 = (Int.gcd a b : ℤ) := by
  induction a, b using extended_gcd.induct with
  | case1 b =>
    rw [extended_gcd]
    simp [Int.gcd_zero_left, Int.natAbs_of_nonneg hb]
  | case2 a b h ih =>
    rw [extended_gcd, if_neg h]
    have hapos : 0 < a := lt_of_le_of_ne ha (Ne.symm h)
    simp only
    rw [ih (Int.fmod_nonneg' b hapos) ha, gcd_fmod_left, Int.gcd_comm]

theorem modinv_spec {a m : ℤ} (hm : 0 < m) (h : Int.gcd a m = 1) :
    ∃ v, modinv a m = some v ∧ 0 ≤ v ∧ v < m ∧ a * v ≡ 1 [ZMOD m] := by
  have hfm : 0 ≤ Int.fmod a m := Int.fmod_nonneg' a hm
  have hg : (extended_gcd (Int.fmod a m) m).1 = (Int.gcd (Int.fmod a m) m : ℤ) :=
    extended_gcd_fst_of_nonneg hfm (le_of_lt hm)
  have hg1 : Int.gcd (Int.fmod a m) m = 1 := by
    rw [gcd_fmod_left m a]; exact h
  rw [hg1] at hg
  push_cast at hg
  refine ⟨Int.fmod (extended_gcd (Int.fmod a m) m).2.1 m, ?_, ?_, ?_, ?_⟩
  · simp [modinv, hg]
  · exact Int.fmod_nonneg' _ hm
  · exact Int.fmod_lt_of_pos _ hm
  · -- Bezout: (a % m) * x + m * y = 1, and v ≡ x, a ≡ a % m (mod m)
    have hb := extended_gcd_bezout (Int.fmod a m) m
    rw [hg] at hb
    set x := (extended_gcd (Int.fmod a m) m).2.1
    set y := (extended_gcd (Int.fmod a m) m).2.2
    have hfe : Int.fmod a m = a % m := Int.fmod_eq_emod a (le_of_lt hm)
    have hve : Int.fmod x m = x % m := Int.fmod_eq_emod x (le_of_lt hm)
    rw [hve]
    have h1 : a * (x % m) ≡ a * x [ZMOD m] :=
      Int.ModEq.mul_left a (Int.emod_emod_of_dvd x dvd_rfl)
    have h2 : a * x ≡ (a % m) * x [ZMOD m] :=
      Int.ModEq.mul_right x (Int.emod_emod_of_dvd a dvd_rfl).symm
    have h3 : (a % m) * x ≡ 1 [ZMOD m] := by
      rw [Int.ModEq]
      have : (a % m) * x = 1 - m * y := by rw [← hfe]; linarith [hb]
      rw [this]
      simp [Int.sub_emod, Int.mul_emod_right]
    exact (h1.trans h2).trans h3

theorem nthRootLoop_spec (k n : ℕ) :
    ∀ lo hi, lo ^ k ≤ n → n < (hi + 1) ^ k → lo ≤ hi →
      (nthRootLoop k n lo hi) ^ k ≤ n ∧ n < (nthRootLoop k n lo hi + 1) ^ k := by
  intro lo hi
  induction lo, hi using nthRootLoop.induct k n with
  | case1 lo hi hlt mid hmid ih =>
    intro h1 h2 h3
    have hmeq : mid = (lo + hi + 1) / 2 := rfl
    rw [nthRootLoop, if_pos hlt]
    show (if mid ^ k ≤ n then nthRootLoop k n mid hi
      else nthRootLoop k n lo (mid - 1)) ^ k ≤ n ∧
      n < ((if mid ^ k ≤ n then nthRootLoop k n mid hi
      else nthRootLoop k n lo (mid - 1)) + 1) ^ k
    rw [if_pos hmid]
    exact ih hmid h2 (by omega)
  | case2 lo hi hlt mid hmid ih =>
    intro h1 h2 h3
    have hmeq : mid = (lo + hi + 1) / 2 := rfl
    rw [nthRootLoop, if_pos hlt]
    show (if mid ^ k ≤ n then nthRootLoop k n mid hi
      else nthRootLoop k n lo (mid - 1)) ^ k ≤ n ∧
      n < ((if mid ^ k ≤ n then nthRootLoop k n mid hi
      else nthRootLoop k n lo (mid - 1)) + 1) ^ k
    rw [if_neg hmid]
    refine ih h1 ?_ (by omega)
    have h4 : mid - 1 + 1 = mid := by omega
    rw [h4]
    omega
  | case3 lo hi hlt =>
    intro h1 h2 h3
    rw [nthRootLoop, if_neg hlt]
    have heq : lo = hi := by omega
    subst heq
    exact ⟨h1, h2⟩

/-- Main specification of `integer_nth_root`: for `k ≥ 1` it returns
`some (root, exact)` with `root = ⌊n^(1/k)⌋` and `exact ↔ root^k = n`,
whatever the floating-point oracle produced. -/
theorem integer_nth_root_spec (xhat n k : ℕ) (hk : 1 ≤ k) :
    ∃ r ex, integer_nth_root xhat n k = some (r, ex) ∧
      r ^ k ≤ n ∧ n < (r + 1) ^ k ∧ (ex = true ↔ r ^ k = n) := by
  have hk0 : k ≠ 0 := by omega
  rw [integer_nth_root, if_neg hk0]
  by_cases hn : n = 0
  · subst hn
    refine ⟨0, true, by simp, ?_, ?_, ?_⟩ <;> simp [Nat.zero_pow hk]
  · rw [if_neg hn]
    by_cases hk1 : k = 1
    · subst hk1
      exact ⟨n, true, by simp, by simp, by simp, by simp⟩
    · rw [if_neg hk1]
      cases hfind : [xhat - 2, xhat - 1, xhat, xhat + 1, xhat + 2].find?
          (fun c => decide (0 < c ∧ c ^ k = n)) with
      | some c =>
        have hc := List.find?_some hfind
        rw [decide_eq_true_eq] at hc
        refine ⟨c, true, rfl, le_of_eq hc.2, ?_, by simp [hc.2]⟩
        calc n = c ^ k := hc.2.symm
          _ < (c + 1) ^ k := Nat.pow_lt_pow_left (by omega) hk0
      | none =>
        have hn1 : 1 ≤ n := by omega
        set B := 1 <<< ((Nat.size n + k - 1) / k + 1) with hB
        have hBval : B = 2 ^ ((Nat.size n + k - 1) / k + 1) := by
          rw [hB, Nat.shiftLeft_eq, one_mul]
        have hB1 : 1 ≤ B := by rw [hBval]; exact Nat.one_le_two_pow
        have hhi2 : n < (min n B + 1) ^ k := by
          rcases le_total n B with hle | hle
          · rw [min_eq_left hle]
            calc n < n + 1 := by omega
              _ ≤ (n + 1) ^ k := Nat.le_self_pow hk0 _
          · rw [min_eq_right hle]
            set s := Nat.size n
            set q := (s + k - 1) / k with hq
            have hkq : s ≤ k * q := by
              have hdm := Nat.div_add_mod (s + k - 1) k
              have hmlt : (s + k - 1) % k < k := Nat.mod_lt _ (by omega)
              rw [hq]
              omega
            have h1 : n < 2 ^ s := Nat.lt_size_self n
            have h2 : (2 : ℕ) ^ s ≤ 2 ^ (k * q) :=
              Nat.pow_le_pow_right (by omega) hkq
            have h3 : (2 : ℕ) ^ (k * q) = (2 ^ q) ^ k := by
              rw [← pow_mul, mul_comm]
            have h4 : (2 : ℕ) ^ q ≤ B := by
              rw [hBval]
              exact Nat.pow_le_pow_right (by omega) (by omega)
            calc n < 2 ^ s := h1
              _ ≤ 2 ^ (k * q) := h2
              _ = (2 ^ q) ^ k := h3
              _ ≤ B ^ k := Nat.pow_le_pow_left h4 k
              _ ≤ (B + 1) ^ k := Nat.pow_le_pow_left (by omega) k
        have hspec := nthRootLoop_spec k n 1 (min n B)
          (by simpa using hn1) hhi2 (by omega)
        exact ⟨nthRootLoop k n 1 (min n B), _, rfl, hspec.1, hspec.2,
          by rw [decide_eq_true_eq]⟩

/-! ### Claim C5: `gcd` -/

/-- C5 counterexample: the claim `gcd(0, x) == |x|` for every integer `x`
fails at `x = -5`, where the source's Euclidean loop returns `-5`, not
`5`. -/
theorem gcd_claim_counterexample :
    gcd 0 (-5) = -5 ∧ (-5 : ℤ) ≠ |(-5 : ℤ)| :=
  ⟨gcd_zero_left_eq (-5), by decide⟩

/-- C5 (amended): for non-negative arguments `gcd` returns the
non-negative greatest common divisor, and `gcd 0 x = x = |x|` for
`x ≥ 0`; for a negative argument the result keeps that argument's sign
(`gcd 0 x = x` always). -/
theorem gcd_correct (a b : ℤ) (ha : 0 ≤ a) (hb : 0 ≤ b) :
    gcd a b = (Int.gcd a b : ℤ) ∧ gcd 0 b = b ∧ gcd 0 b = |b| :=
  ⟨gcd_eq_of_nonneg ha hb, gcd_zero_left_eq b,
    by rw [gcd_zero_left_eq b, abs_of_nonneg hb]⟩

/-- C5 witness: the amended statement instantiated at `(12, 8)`. -/
theorem gcd_correct_witness :
    gcd 12 8 = (Int.gcd 12 8 : ℤ) ∧ gcd 0 8 = 8 ∧ gcd 0 8 = |(8 : ℤ)| :=
  gcd_correct 12 8 (by norm_num) (by norm_num)

/-! ### Claim C7: `extended_gcd` -/

/-- C7 counterexample: at the edge pair `(0, k)` with `k = -1` the source
returns `(-1, 0, 1)`, whose first component is `-1`, not
`gcd(0, -1) = 1`; the Bezout identity still holds. -/
theorem extended_gcd_claim_counterexample :
    (extended_gcd 0 (-1)).1 = -1 ∧ Int.gcd (0 : ℤ) (-1) = 1 := by
  rw [extended_gcd]
  norm_num

/-- C7 (amended): for all integers `a`, `b`, `extended_gcd` returns
`(g, x, y)` with `a*x + b*y == g` and `|g| == gcd(a, b)`; `g` equals the
non-negative gcd itself whenever both arguments are non-negative, and the
edge pair `(0, k)` returns `(k, 0, 1)`. -/
theorem extended_gcd_correct (a b : ℤ) :
    a * (extended_gcd a b).2.1 + b * (extended_gcd a b).2.2 =
      (extended_gcd a b).1 ∧
    (extended_gcd a b).1.natAbs = Int.gcd a b ∧
    extended_gcd 0 b = (b, 0, 1) :=
  ⟨extended_gcd_bezout a b, extended_gcd_fst_natAbs a b, by rw [extended_gcd]; simp⟩

/-! ### Claim C2: `integer_nth_root` -/

/-- C2: for every `n ≥ 0`, `k ≥ 1` and every float-estimate oracle,
`integer_nth_root` returns `(root, exact)` with `root = ⌊n^(1/k)⌋`
(characterised by `root^k ≤ n < (root+1)^k`) and `exact ↔ root^k = n`;
in particular `k = 1` yields `(n, true)`, `n = 0` yields `(0, true)`,
and `(n, k) = (10, 3)` yields `(2, false)`. -/
theorem integer_nth_root_correct (xhat n k : ℕ) (hk : 1 ≤ k) :
    ∃ r ex, integer_nth_root xhat n k = some (r, ex) ∧
      r ^ k ≤ n ∧ n < (r + 1) ^ k ∧ (ex = true ↔ r ^ k = n) ∧
      (k = 1 → (r, ex) = (n, true)) ∧
      (n = 0 → (r, ex) = (0, true)) ∧
      (n = 10 → k = 3 → (r, ex) = (2, false)) := by
  obtain ⟨r, ex, heq, h1, h2, h3⟩ := integer_nth_root_spec xhat n k hk
  refine ⟨r, ex, heq, h1, h2, h3, ?_, ?_, ?_⟩
  · rintro rfl
    simp only [pow_one] at h1 h2
    have hr : r = n := by omega
    subst hr
    have : ex = true := h3.mpr (pow_one r)
    simp [this]
  · rintro rfl
    have hr : r = 0 := by
      have := Nat.pos_of_ne_zero (n := r)
      by_contra hne
      have hrpos : 0 < r := Nat.pos_of_ne_zero hne
      have : 1 ≤ r ^ k := Nat.one_le_pow _ _ hrpos
      omega
    subst hr
    have : ex = true := h3.mpr (by simp [Nat.zero_pow (by omega : 0 < k)])
    simp [this]
  · rintro rfl rfl
    have hr : r = 2 := by
      by_contra hne
      rcases Nat.lt_or_ge r 2 with hlt | hge
      · have : (r + 1) ^ 3 ≤ 8 := by
          have : r + 1 ≤ 2 := by omega
          calc (r + 1) ^ 3 ≤ 2 ^ 3 := Nat.pow_le_pow_left this 3
            _ = 8 := by norm_num
        omega
      · have hge3 : 3 ≤ r := by omega
        have : 27 ≤ r ^ 3 := by
          calc (27 : ℕ) = 3 ^ 3 := by norm_num
            _ ≤ r ^ 3 := Nat.pow_le_pow_left hge3 3
        omega
    subst hr
    have : ex = false := by
      rcases Bool.eq_false_or_eq_true ex with h | h
      · exact absurd (h3.mp h) (by norm_num)
      · exact h
    simp [this]

/-- C2 witness: the statement instantiated at oracle `5`, `n = 10`,
`k = 3`. -/
theorem integer_nth_root_correct_witness :
    ∃ r ex, integer_nth_root 5 10 3 = some (r, ex) ∧
      r ^ 3 ≤ 10 ∧ 10 < (r + 1) ^ 3 ∧ (ex = true ↔ r ^ 3 = 10) ∧
      (3 = 1 → (r, ex) = (10, true)) ∧
      ((10 : ℕ) = 0 → (r, ex) = (0, true)) ∧
      ((10 : ℕ) = 10 → 3 = 3 → (r, ex) = (2, false)) :=
  integer_nth_root_correct 5 10 3 (by norm_num)

/-! ### Claim C6: `fermat_factor` (code bug at `n = 2`) -/

/-- C6: at the failing input `n = 2` (even, `> 1`) the source returns
`(2, n // 2) = (2, 1)`, which is not the ordered factor pair promised by
the claim and by the function's own contract `1 < p <= q < n`. -/
theorem fermat_factor_bug_at_two :
    fermat_factor 2 1000000 = Except.ok (some (2, 1)) ∧ ¬((2 : ℕ) ≤ 1) := by
  constructor
  · rfl
  · decide

/-! ### Claim C8: `pollard_rho` (code bug at `n = 2`) -/

/-- C8: at the failing input `n = 2` (prime) the even-`n` shortcut fires
before the primality pre-check and the source returns `2 = n`, which is
not a non-trivial factor (`1 < f < n` fails) and contradicts the
function's own contract of returning absence for prime input; this holds
for every Miller-Rabin base list and step budget. -/
theorem pollard_rho_bug_at_two (bases : List ℕ) (fuel : ℕ) :
    pollard_rho bases 2 fuel = Except.ok (some 2) ∧ ¬((2 : ℕ) < 2) :=
  ⟨rfl, by decide⟩

/-! ### Claim C3: `wiener_attack` -/

theorem wienerCheck_none_of_fmod_ne {n e : ℕ} (k d : ℕ)
    (h : ((e : ℤ) * (d : ℤ) - 1) % (k : ℤ) ≠ 0) :
    wienerCheck n e (k, d) = none := by
  rw [wienerCheck]
  by_cases hk : k = 0
  · simp [hk]
  · rw [Int.fmod_eq_emod _ (by positivity)]
    simp [hk, h]

theorem wienerCheck_none_of_disc_neg {n e : ℕ} (k d : ℕ) (hk : k ≠ 0)
    (h0 : ((e : ℤ) * (d : ℤ) - 1) % (k : ℤ) = 0)
    (hdisc : ((n : ℤ) - ((e : ℤ) * (d : ℤ) - 1) / (k : ℤ) + 1) *
      ((n : ℤ) - ((e : ℤ) * (d : ℤ) - 1) / (k : ℤ) + 1) - 4 * (n : ℤ) < 0) :
    wienerCheck n e (k, d) = none := by
  rw [wienerCheck]
  rw [Int.fmod_eq_emod _ (by positivity), Int.fdiv_eq_ediv _ (by positivity)]
  simp [hk, h0, hdisc, if_pos]
theorem convergents_four_r0 (e : ℕ) (h : e % 4 = 0) :
    convergents e 4 = [(e / 4, 1)] := by
  rw [convergents, continued_fraction]
  simp [h, continued_fraction, convergentsAux]

theorem convergents_four_r1 (e : ℕ) (h : e % 4 = 1) :
    convergents e 4 = [(e / 4, 1), (4 * (e / 4) + 1, 4)] := by
  rw [convergents, continued_fraction]
  simp [h, continued_fraction, convergentsAux]

theorem convergents_four_r2 (e : ℕ) (h : e % 4 = 2) :
    convergents e 4 = [(e / 4, 1), (2 * (e / 4) + 1, 2)] := by
  rw [convergents, continued_fraction]
  simp [h, continued_fraction, convergentsAux]

theorem convergents_four_r3 (e : ℕ) (h : e % 4 = 3) :
    convergents e 4 = [(e / 4, 1), (e / 4 + 1, 1), (4 * (e / 4) + 3, 4)] := by
  rw [convergents, continued_fraction]
  simp [h, continued_fraction, convergentsAux]
  ring
theorem convergents_four_r0' (t : ℕ) : convergents (4 * t) 4 = [(t, 1)] := by
  have h := convergents_four_r0 (4 * t) (by omega)
  rwa [show 4 * t / 4 = t by omega] at h

theorem convergents_four_r1' (t : ℕ) :
    convergents (4 * t + 1) 4 = [(t, 1), (4 * t + 1, 4)] := by
  have h := convergents_four_r1 (4 * t + 1) (by omega)
  rwa [show (4 * t + 1) / 4 = t by omega] at h

theorem convergents_four_r2' (t : ℕ) :
    convergents (4 * t + 2) 4 = [(t, 1), (2 * t + 1, 2)] := by
  have h := convergents_four_r2 (4 * t + 2) (by omega)
  rwa [show (4 * t + 2) / 4 = t by omega] at h

theorem convergents_four_r3' (t : ℕ) :
    convergents (4 * t + 3) 4 = [(t, 1), (t + 1, 1), (4 * t + 3, 4)] := by
  have h := convergents_four_r3 (4 * t + 3) (by omega)
  rwa [show (4 * t + 3) / 4 = t by omega] at h

theorem neg_emod_ne_zero {c m : ℤ} (hc : 0 < c) (hm : c < m) :
    (-c) % m ≠ 0 := by
  intro h
  have hdvd : m ∣ -c := Int.dvd_of_emod_eq_zero h
  rw [Int.dvd_neg] at hdvd
  have := Int.le_of_dvd hc hdvd
  omega

theorem pos_emod_ne_zero {c m : ℤ} (hc : 0 < c) (hm : c < m) :
    c % m ≠ 0 := by
  rw [Int.emod_eq_of_lt (by omega) hm]
  omega

theorem wiener_four (e : ℕ) :
    (convergents e 4).findSome? (wienerCheck 4 e) = none := by
  have hr : e % 4 = 0 ∨ e % 4 = 1 ∨ e % 4 = 2 ∨ e % 4 = 3 := by omega
  rcases hr with h | h | h | h
  · obtain ⟨t, rfl⟩ : ∃ t, e = 4 * t := ⟨e / 4, by omega⟩
    rw [convergents_four_r0', List.findSome?_eq_none_iff]
    intro x hx
    simp only [List.mem_singleton] at hx
    subst hx
    by_cases ht0 : t = 0
    · subst ht0; simp [wienerCheck]
    · by_cases ht1 : t = 1
      · subst ht1; decide
      · apply wienerCheck_none_of_fmod_ne
        have heq : ((4 * t : ℕ) : ℤ) * ((1 : ℕ) : ℤ) - 1 = -1 + (t : ℤ) * 4 := by
          push_cast; ring
        rw [heq, Int.add_mul_emod_self_left]
        exact neg_emod_ne_zero (by omega) (by exact_mod_cast by omega)
  · obtain ⟨t, rfl⟩ : ∃ t, e = 4 * t + 1 := ⟨e / 4, by omega⟩
    rw [convergents_four_r1', List.findSome?_eq_none_iff]
    intro x hx
    simp only [List.mem_cons, List.not_mem_nil, or_false] at hx
    rcases hx with rfl | rfl
    · by_cases ht0 : t = 0
      · subst ht0; simp [wienerCheck]
      · apply wienerCheck_none_of_disc_neg _ _ ht0
        · have heq : ((4 * t + 1 : ℕ) : ℤ) * ((1 : ℕ) : ℤ) - 1 = (t : ℤ) * 4 := by
            push_cast; ring
          rw [heq]
          exact Int.mul_emod_right _ _
        · have heq : ((4 * t + 1 : ℕ) : ℤ) * ((1 : ℕ) : ℤ) - 1 = (t : ℤ) * 4 := by
            push_cast; ring
          rw [heq, Int.mul_ediv_cancel_left _ (by exact_mod_cast ht0)]
          norm_num
    · by_cases ht0 : t = 0
      · subst ht0; decide
      · apply wienerCheck_none_of_fmod_ne
        have heq : ((4 * t + 1 : ℕ) : ℤ) * ((4 : ℕ) : ℤ) - 1 =
            -1 + ((4 * t + 1 : ℕ) : ℤ) * 4 := by push_cast; ring
        rw [heq, Int.add_mul_emod_self_left]
        exact neg_emod_ne_zero (by omega) (by push_cast; omega)
  · obtain ⟨t, rfl⟩ : ∃ t, e = 4 * t + 2 := ⟨e / 4, by omega⟩
    rw [convergents_four_r2', List.findSome?_eq_none_iff]
    intro x hx
    simp only [List.mem_cons, List.not_mem_nil, or_false] at hx
    rcases hx with rfl | rfl
    · by_cases ht0 : t = 0
      · subst ht0; simp [wienerCheck]
      · by_cases ht1 : t = 1
        · subst ht1; decide
        · apply wienerCheck_none_of_fmod_ne
          have heq : ((4 * t + 2 : ℕ) : ℤ) * ((1 : ℕ) : ℤ) - 1 =
              1 + (t : ℤ) * 4 := by push_cast; ring
          rw [heq, Int.add_mul_emod_self_left]
          exact pos_emod_ne_zero (by omega) (by exact_mod_cast by omega)
    · by_cases ht0 : t = 0
      · subst ht0; decide
      · apply wienerCheck_none_of_fmod_ne
        have heq : ((4 * t + 2 : ℕ) : ℤ) * ((2 : ℕ) : ℤ) - 1 =
            -1 + ((2 * t + 1 : ℕ) : ℤ) * 4 := by push_cast; ring
        rw [heq, Int.add_mul_emod_self_left]
        exact neg_emod_ne_zero (by omega) (by push_cast; omega)
  · obtain ⟨t, rfl⟩ : ∃ t, e = 4 * t + 3 := ⟨e / 4, by omega⟩
    rw [convergents_four_r3', List.findSome?_eq_none_iff]
    intro x hx
    simp only [List.mem_cons, List.not_mem_nil, or_false] at hx
    rcases hx with rfl | rfl | rfl
    · by_cases ht0 : t = 0
      · subst ht0; simp [wienerCheck]
      · by_cases ht1 : t = 1
        · subst ht1; decide
        · by_cases ht2 : t = 2
          · subst ht2; decide
          · apply wienerCheck_none_of_fmod_ne
            have heq : ((4 * t + 3 : ℕ) : ℤ) * ((1 : ℕ) : ℤ) - 1 =
                2 + (t : ℤ) * 4 := by push_cast; ring
            rw [heq, Int.add_mul_emod_self_left]
            exact pos_emod_ne_zero (by omega) (by exact_mod_cast by omega)
    · by_cases ht0 : t = 0
      · subst ht0; decide
      · by_cases ht1 : t = 1
        · subst ht1; decide
        · apply wienerCheck_none_of_fmod_ne
          have heq : ((4 * t + 3 : ℕ) : ℤ) * ((1 : ℕ) : ℤ) - 1 =
              -2 + ((t + 1 : ℕ) : ℤ) * 4 := by push_cast; ring
          rw [heq, Int.add_mul_emod_self_left]
          exact neg_emod_ne_zero (by omega) (by push_cast; omega)
    · apply wienerCheck_none_of_fmod_ne
      have heq : ((4 * t + 3 : ℕ) : ℤ) * ((4 : ℕ) : ℤ) - 1 =
          -1 + ((4 * t + 3 : ℕ) : ℤ) * 4 := by push_cast; ring
      rw [heq, Int.add_mul_emod_self_left]
      exact neg_emod_ne_zero (by omega) (by push_cast; omega)
theorem wienerCheck_sound {n e : ℕ} {kd : ℕ × ℕ} {d : ℕ}
    (h : wienerCheck n e kd = some d) :
    d = kd.2 ∧ ∃ p q : ℤ, 1 < p ∧ 1 < q ∧ p * q = (n : ℤ) ∧
      ((p - 1) * (q - 1)) ∣ ((e : ℤ) * (d : ℤ) - 1) := by
  rw [wienerCheck] at h
  by_cases hk : kd.1 = 0
  · simp [hk] at h
  rw [if_neg hk] at h
  by_cases hf : Int.fmod ((e : ℤ) * (kd.2 : ℤ) - 1) (kd.1 : ℤ) ≠ 0
  · rw [if_pos hf] at h; exact absurd h (by simp)
  rw [if_neg hf] at h
  push_neg at hf
  set ed1 : ℤ := (e : ℤ) * (kd.2 : ℤ) - 1 with hed1
  set phi : ℤ := Int.fdiv ed1 (kd.1 : ℤ) with hphi
  set s : ℤ := (n : ℤ) - phi + 1 with hs
  set disc : ℤ := s * s - 4 * (n : ℤ) with hdisc
  by_cases hdn : disc < 0
  · rw [if_pos hdn] at h; exact absurd h (by simp)
  rw [if_neg hdn] at h
  set b : ℤ := (isqrt disc.toNat : ℤ) with hb
  by_cases hbb : b * b ≠ disc
  · rw [if_pos hbb] at h; exact absurd h (by simp)
  rw [if_neg hbb] at h
  push_neg at hbb
  set p : ℤ := Int.fdiv (s + b) 2 with hp
  set q : ℤ := Int.fdiv (s - b) 2 with hq
  by_cases hguard : p * q = (n : ℤ) ∧ 1 < p ∧ 1 < q
  swap
  · rw [if_neg hguard] at h; exact absurd h (by simp)
  rw [if_pos hguard] at h
  have hd : d = kd.2 := by
    have := Option.some.inj h
    omega
  subst hd
  obtain ⟨hpq, hp1, hq1⟩ := hguard
  -- k * phi = ed1
  have hkphi : (kd.1 : ℤ) * phi = ed1 := by
    have := Int.fmod_add_fdiv ed1 (kd.1 : ℤ)
    rw [hf] at this
    linarith [this]
  -- parity: s and b have the same parity, so p, q are exact halves
  have hss : s * s = b * b + 4 * (n : ℤ) := by rw [hbb, hdisc]; ring
  have h4e : Even (4 * (n : ℤ)) := ⟨2 * n, by ring⟩
  have h1 : Even (s * s) ↔ Even (b * b) := by
    rw [hss]
    constructor
    · intro hs2
      exact (Int.even_add.mp hs2).mpr h4e
    · intro hb2
      exact Int.even_add.mpr (iff_of_true hb2 h4e)
  have h2 : Even s ↔ Even b := by
    rw [Int.even_mul, or_self, Int.even_mul, or_self] at h1
    exact h1
  have h2p : 2 * p = s + b := by
    obtain ⟨u, hu⟩ := Int.even_add.mpr h2
    rw [hp, hu, show u + u = 2 * u by ring,
      Int.mul_fdiv_cancel_left _ (by norm_num : (2 : ℤ) ≠ 0)]
  have h2q : 2 * q = s - b := by
    obtain ⟨u, hu⟩ := Int.even_sub.mpr h2
    rw [hq, hu, show u + u = 2 * u by ring,
      Int.mul_fdiv_cancel_left _ (by norm_num : (2 : ℤ) ≠ 0)]
  have hsum : p + q = s := by omega
  have hphin : phi = (n : ℤ) - s + 1 := by rw [hs]; ring
  have hfactor : (p - 1) * (q - 1) = phi := by
    have hexp : (p - 1) * (q - 1) = p * q - (p + q) + 1 := by ring
    rw [hexp, hpq, hsum, hphin]
  refine ⟨rfl, p, q, hp1, hq1, hpq, ?_⟩
  rw [hfactor]
  exact ⟨(kd.1 : ℤ), by linarith [hkphi]⟩
/-- C3: whenever `wiener_attack` returns `some d`, there are integers
`p, q > 1` with `p * q = n` and `(e * d) mod ((p-1)*(q-1)) = 1` — every
returned candidate has a verified factorisation and private-exponent
relation.  (The degenerate factorisation `p = q = 2`, where the modular
relation could not hold, is impossible: for `n = 4` no convergent of
`e/4` ever passes the checks.) -/
theorem wiener_attack_sound (key : RSAKey) (d : ℕ)
    (h : wiener_attack key = some d) :
    ∃ p q : ℤ, 1 < p ∧ 1 < q ∧ p * q = (key.n : ℤ) ∧
      Int.fmod ((key.e : ℤ) * (d : ℤ)) ((p - 1) * (q - 1)) = 1 := by
  rw [wiener_attack] at h
  obtain ⟨kd, hmem, hck⟩ := List.exists_of_findSome?_eq_some h
  obtain ⟨hd, p, q, hp1, hq1, hpq, hdvd⟩ := wienerCheck_sound hck
  have hphi0 : 1 ≤ (p - 1) * (q - 1) := by nlinarith
  by_cases hphi : 1 < (p - 1) * (q - 1)
  · refine ⟨p, q, hp1, hq1, hpq, ?_⟩
    obtain ⟨c, hc⟩ := hdvd
    have hrw : (key.e : ℤ) * (d : ℤ) = 1 + (p - 1) * (q - 1) * c := by linarith
    rw [Int.fmod_eq_emod _ (by omega), hrw, Int.add_mul_emod_self_left,
      Int.emod_eq_of_lt (by norm_num) hphi]
  · -- (p-1)(q-1) = 1 forces p = q = 2, n = 4, excluded by wiener_four
    exfalso
    have hpe : p = 2 := by nlinarith
    have hqe : q = 2 := by nlinarith
    have hn4 : key.n = 4 := by
      rw [hpe, hqe] at hpq
      exact_mod_cast hpq.symm
    rw [hn4, wiener_four key.e] at h
    exact Option.noConfusion h
theorem isqrt_eq {a n : ℕ} (h1 : a * a ≤ n) (h2 : n < (a + 1) * (a + 1)) :
    isqrt n = a :=
  (Nat.eq_sqrt.mpr ⟨h1, h2⟩).symm

theorem wienerCheck_eval_some (n e k d : ℕ) (phi s disc b p q : ℤ)
    (hk : k ≠ 0)
    (h0 : Int.fmod ((e : ℤ) * (d : ℤ) - 1) (k : ℤ) = 0)
    (hphi : Int.fdiv ((e : ℤ) * (d : ℤ) - 1) (k : ℤ) = phi)
    (hs : (n : ℤ) - phi + 1 = s)
    (hdisc : s * s - 4 * (n : ℤ) = disc)
    (hd0 : ¬ disc < 0)
    (hb : ((isqrt disc.toNat : ℕ) : ℤ) = b)
    (hbb : b * b = disc)
    (hp : Int.fdiv (s + b) 2 = p)
    (hq : Int.fdiv (s - b) 2 = q)
    (hg : p * q = (n : ℤ) ∧ 1 < p ∧ 1 < q) :
    wienerCheck n e (k, d) = some d := by
  rw [wienerCheck]
  simp only [hk, if_neg, h0, hphi, hs, hdisc, hd0, hb, hbb, hp, hq]
  simp [hg]

theorem wiener_attack_eval_899 :
    wiener_attack ⟨899, 841, none, none, none⟩ = some 1 := by
  rw [wiener_attack]
  show (convergents 841 899).findSome? (wienerCheck 899 841) = some 1
  have hcf : continued_fraction 841 899 = [0, 1, 14, 2] := by
    simp [continued_fraction]
  rw [convergents, hcf]
  have hconv : convergentsAux [0, 1, 14, 2] (0, 1) (1, 0) =
      [(0, 1), (1, 1), (14, 15), (29, 31)] := by decide
  rw [hconv]
  have hc0 : wienerCheck 899 841 (0, 1) = none := by simp [wienerCheck]
  have hc1 : wienerCheck 899 841 (1, 1) = some 1 := by
    apply wienerCheck_eval_some 899 841 1 1 840 60 4 2 31 29
    · decide
    · decide
    · decide
    · decide
    · decide
    · decide
    · rw [show ((4 : ℤ)).toNat = 4 from rfl,
        show isqrt 4 = 2 from isqrt_eq (by norm_num) (by norm_num)]
      norm_num
    · decide
    · decide
    · decide
    · refine ⟨by decide, by decide, by decide⟩
  rw [List.findSome?_cons_of_isNone _ (by rw [hc0]; rfl),
    List.findSome?_cons_of_isSome _ (by rw [hc1]; rfl), hc1]

/-- C3 witness: the key `(n, e) = (899, 841)` (with `899 = 29 * 31`,
`d = 1`) instantiates the soundness statement. -/
theorem wiener_attack_sound_witness :
    ∃ p q : ℤ, 1 < p ∧ 1 < q ∧ p * q = ((899 : ℕ) : ℤ) ∧
      Int.fmod (((841 : ℕ) : ℤ) * ((1 : ℕ) : ℤ)) ((p - 1) * (q - 1)) = 1 :=
  wiener_attack_sound ⟨899, 841, none, none, none⟩ 1 wiener_attack_eval_899

/-! ### Claim C4: `common_modulus_attack` -/

theorem intCast_fmod_zmod {n : ℕ} (x : ℤ) :
    ((Int.fmod x (n : ℤ) : ℤ) : ZMod n) = (x : ZMod n) := by
  rw [Int.fmod_eq_emod _ (by positivity), ZMod.intCast_eq_intCast_iff]
  exact Int.emod_emod_of_dvd x dvd_rfl

theorem powmod_cast {n : ℕ} (c : ℤ) (k : ℕ) :
    ((powmod c k (n : ℤ) : ℤ) : ZMod n) = (c : ZMod n) ^ k := by
  rw [powmod, intCast_fmod_zmod]
  push_cast
  ring

theorem modinv_int_eq_modinv : @modinv_int = @modinv := rfl

theorem cmTerm_cast {n : ℕ} (hn : 0 < n) (c A : ℤ) (w : (ZMod n)ˣ)
    (hc : (c : ZMod n) = ↑w) (hcop : Int.gcd c (n : ℤ) = 1) :
    ∃ t : ℤ, cmTerm (n : ℤ) c A = Except.ok t ∧
      ((t : ℤ) : ZMod n) = ↑(w ^ A) := by
  rw [cmTerm]
  by_cases hA : A < 0
  · rw [if_pos hA]
    obtain ⟨v, hv, hv0, hvn, hmul⟩ :=
      modinv_spec (a := c) (m := (n : ℤ)) (by exact_mod_cast hn) hcop
    rw [modinv_int_eq_modinv, hv]
    refine ⟨powmod v (-A).toNat (n : ℤ), rfl, ?_⟩
    have hvz : (v : ZMod n) = ↑(w⁻¹) := by
      have h1 : ((c * v : ℤ) : ZMod n) = ((1 : ℤ) : ZMod n) :=
        (ZMod.intCast_eq_intCast_iff _ _ _).mpr hmul
      push_cast at h1
      rw [hc] at h1
      calc (v : ZMod n) = (↑(w⁻¹) * ↑w) * (v : ZMod n) := by
            rw [← Units.val_mul, inv_mul_cancel, Units.val_one, one_mul]
        _ = ↑(w⁻¹) * ((↑w : ZMod n) * v) := by ring
        _ = ↑(w⁻¹) := by rw [h1, mul_one]
    rw [powmod_cast, hvz, ← Units.val_pow_eq_pow_val, ← zpow_natCast,
      inv_zpow, ← zpow_neg]
    congr 2
    omega
  · rw [if_neg hA]
    refine ⟨powmod c A.toNat (n : ℤ), rfl, ?_⟩
    rw [powmod_cast, hc, ← Units.val_pow_eq_pow_val, ← zpow_natCast]
    congr 2
    omega
/-- C4: for `n > 1`, coprime exponents `e1, e2`, and a plaintext
`0 ≤ m < n` coprime to `n`, the attack on `c1 = m^e1 mod n`,
`c2 = m^e2 mod n` recovers exactly `m`. -/
theorem common_modulus_attack_correct (n e1 e2 m c1 c2 : ℕ)
    (hn : 1 < n) (hcop : Nat.gcd e1 e2 = 1) (hm : m < n)
    (hmn : Nat.gcd m n = 1)
    (hc1 : c1 = m ^ e1 % n) (hc2 : c2 = m ^ e2 % n) :
    common_modulus_attack (n : ℤ) (e1 : ℤ) (e2 : ℤ) (c1 : ℤ) (c2 : ℤ) =
      Except.ok (some (m : ℤ)) := by
  subst hc1
  subst hc2
  simp only [common_modulus_attack]
  have hg : gcd (e1 : ℤ) (e2 : ℤ) = 1 := by
    rw [gcd_eq_of_nonneg (by positivity) (by positivity),
      Int.gcd_natCast_natCast, hcop]
    norm_num
  rw [if_neg (by rw [hg]; simp)]
  have hbez := extended_gcd_bezout (e1 : ℤ) (e2 : ℤ)
  have hg1 : (extended_gcd (e1 : ℤ) (e2 : ℤ)).1 = 1 := by
    rw [extended_gcd_fst_of_nonneg (by positivity) (by positivity),
      Int.gcd_natCast_natCast, hcop]
    norm_num
  rw [hg1] at hbez
  have hmcop : Nat.Coprime m n := hmn
  have hwm : (↑(ZMod.unitOfCoprime m hmcop) : ZMod n) = (m : ZMod n) :=
    ZMod.coe_unitOfCoprime m hmcop
  have hnpos : 0 < n := by omega
  -- casts of the two ciphertexts
  have hcast1 : (((m ^ e1 % n : ℕ) : ℤ) : ZMod n) =
      ↑(ZMod.unitOfCoprime m hmcop ^ e1) := by
    push_cast [ZMod.natCast_mod]
    rw [← hwm]
  have hcast2 : (((m ^ e2 % n : ℕ) : ℤ) : ZMod n) =
      ↑(ZMod.unitOfCoprime m hmcop ^ e2) := by
    push_cast [ZMod.natCast_mod]
    rw [← hwm]
  have hgcd1 : Int.gcd ((m ^ e1 % n : ℕ) : ℤ) ((n : ℕ) : ℤ) = 1 := by
    rw [Int.gcd_natCast_natCast, ← Nat.gcd_rec, Nat.gcd_comm]
    exact Nat.Coprime.pow_left e1 hmcop
  have hgcd2 : Int.gcd ((m ^ e2 % n : ℕ) : ℤ) ((n : ℕ) : ℤ) = 1 := by
    rw [Int.gcd_natCast_natCast, ← Nat.gcd_rec, Nat.gcd_comm]
    exact Nat.Coprime.pow_left e2 hmcop
  obtain ⟨t1, ht1, ht1c⟩ := cmTerm_cast hnpos ((m ^ e1 % n : ℕ) : ℤ)
    (extended_gcd (e1 : ℤ) (e2 : ℤ)).2.1 (ZMod.unitOfCoprime m hmcop ^ e1)
    hcast1 hgcd1
  obtain ⟨t2, ht2, ht2c⟩ := cmTerm_cast hnpos ((m ^ e2 % n : ℕ) : ℤ)
    (extended_gcd (e1 : ℤ) (e2 : ℤ)).2.2 (ZMod.unitOfCoprime m hmcop ^ e2)
    hcast2 hgcd2
  rw [ht1, ht2]
  have hfinal : Int.fmod (t1 * t2) (n : ℤ) = (m : ℤ) := by
    have hzc : ((Int.fmod (t1 * t2) (n : ℤ) : ℤ) : ZMod n) =
        (((m : ℕ) : ℤ) : ZMod n) := by
      rw [intCast_fmod_zmod]
      push_cast
      rw [ht1c, ht2c, ← Units.val_mul, ← zpow_natCast (ZMod.unitOfCoprime m hmcop) e1,
        ← zpow_natCast (ZMod.unitOfCoprime m hmcop) e2, ← zpow_mul, ← zpow_mul,
        ← zpow_add, hbez, zpow_one, hwm]
    rw [ZMod.intCast_eq_intCast_iff] at hzc
    have h1 : Int.fmod (t1 * t2) (n : ℤ) =
        Int.fmod (t1 * t2) (n : ℤ) % (n : ℤ) := by
      rw [Int.fmod_eq_emod _ (by positivity), Int.emod_emod_of_dvd _ dvd_rfl]
    have h2 : ((m : ℕ) : ℤ) % (n : ℤ) = ((m : ℕ) : ℤ) :=
      Int.emod_eq_of_lt (by positivity) (by exact_mod_cast hm)
    rw [Int.ModEq] at hzc
    rw [Int.fmod_eq_emod _ (by positivity)] at *
    omega
  show Except.ok (some (Int.fmod (t1 * t2) (n : ℤ))) =
    (Except.ok (some (m : ℤ)) : Except Unit (Option ℤ))
  rw [hfinal]
/-- C4 witness: `n = 15`, `e1 = 3`, `e2 = 5`, `m = 2`. -/
theorem common_modulus_attack_correct_witness :
    common_modulus_attack ((15 : ℕ) : ℤ) ((3 : ℕ) : ℤ) ((5 : ℕ) : ℤ)
      ((8 : ℕ) : ℤ) ((2 : ℕ) : ℤ) = Except.ok (some ((2 : ℕ) : ℤ)) :=
  common_modulus_attack_correct 15 3 5 2 8 2 (by norm_num) (by decide)
    (by norm_num) (by decide) (by decide) (by decide)

/-! ### Claim C9: `decrypt . encrypt = id` -/

theorem pow_one_add_totient_multiple (p s m : ℕ) (hp : p.Prime) :
    m ^ (1 + (p - 1) * s) ≡ m [MOD p] := by
  haveI : Fact p.Prime := ⟨hp⟩
  rw [← ZMod.natCast_eq_natCast_iff]
  push_cast
  by_cases hm : (m : ZMod p) = 0
  · rw [hm, zero_pow (by omega)]
  · rw [pow_add, pow_one, pow_mul, ZMod.pow_card_sub_one_eq_one hm, one_pow,
      mul_one]

theorem rsa_pow_round_trip (p q e d m : ℕ) (hp : p.Prime) (hq : q.Prime)
    (hne : p ≠ q) (hed : (e * d) % ((p - 1) * (q - 1)) = 1)
    (hm : m < p * q) :
    (m ^ e % (p * q)) ^ d % (p * q) = m := by
  have hphi : 0 < (p - 1) * (q - 1) := by
    have := hp.two_le
    have := hq.two_le
    have h1 : 0 < p - 1 := by omega
    have h2 : 0 < q - 1 := by omega
    positivity
  have hk := Nat.div_add_mod (e * d) ((p - 1) * (q - 1))
  rw [hed] at hk
  set k := e * d / ((p - 1) * (q - 1)) with hkdef
  have hedk : e * d = 1 + (p - 1) * ((q - 1) * k) := by
    rw [← mul_assoc]
    omega
  have hcongp : m ^ (e * d) ≡ m [MOD p] := by
    rw [hedk]
    exact pow_one_add_totient_multiple p ((q - 1) * k) m hp
  have hcongq : m ^ (e * d) ≡ m [MOD q] := by
    have hedk' : e * d = 1 + (q - 1) * ((p - 1) * k) := by
      rw [← mul_assoc, mul_comm (q - 1) (p - 1)]
      omega
    rw [hedk']
    exact pow_one_add_totient_multiple q ((p - 1) * k) m hq
  have hcop : Nat.Coprime p q := (Nat.coprime_primes hp hq).mpr hne
  have hcong : m ^ (e * d) ≡ m [MOD p * q] :=
    (Nat.modEq_and_modEq_iff_modEq_mul hcop).mp ⟨hcongp, hcongq⟩
  calc (m ^ e % (p * q)) ^ d % (p * q)
      = (m ^ e) ^ d % (p * q) := by rw [← Nat.pow_mod]
    _ = m ^ (e * d) % (p * q) := by rw [← pow_mul]
    _ = m % (p * q) := hcong
    _ = m := Nat.mod_eq_of_lt hm

/-- C9: for every key whose fields satisfy `n = p * q` with distinct
primes `p`, `q` and `(e * d) mod ((p-1)*(q-1)) = 1`, decryption inverts
encryption for every message `0 ≤ m < n`. -/
theorem decrypt_encrypt (key : RSAKey) (p q d m : ℕ)
    (hp : p.Prime) (hq : q.Prime) (hne : p ≠ q)
    (hn : key.n = p * q) (hd : key.d = some d)
    (hed : (key.e * d) % ((p - 1) * (q - 1)) = 1)
    (hm : m < key.n) :
    (encrypt m key).bind (fun c => decrypt c key) = some m := by
  have hnpos : 0 < key.n := by
    rw [hn]
    exact Nat.mul_pos hp.pos hq.pos
  rw [encrypt, if_pos hm]
  show decrypt (m ^ key.e % key.n) key = some m
  simp only [decrypt, hd]
  rw [if_pos (Nat.mod_lt _ hnpos)]
  rw [hn] at hm ⊢
  rw [rsa_pow_round_trip p q key.e d m hp hq hne hed hm]
/-- C9 witness: `p = 3`, `q = 5`, `e = d = 3`, `m = 7`. -/
theorem decrypt_encrypt_witness :
    (encrypt 7 ⟨15, 3, some 3, some 3, some 5⟩).bind
      (fun c => decrypt c ⟨15, 3, some 3, some 3, some 5⟩) = some 7 :=
  decrypt_encrypt ⟨15, 3, some 3, some 3, some 5⟩ 3 5 3 7
    (by norm_num) (by norm_num) (by decide) rfl rfl (by decide) (by decide)

/-! ### Claim C10: Miller-Rabin never rejects a prime -/

theorem mrDecomp_spec (r d : ℕ) (hd : 0 < d) :
    0 < (mrDecomp r d).2 ∧ (mrDecomp r d).2 % 2 = 1 ∧
    2 ^ ((mrDecomp r d).1 - r) * (mrDecomp r d).2 = d ∧ r ≤ (mrDecomp r d).1 := by
  induction r, d using mrDecomp.induct with
  | case1 r d hcond ih =>
    obtain ⟨hev, hdpos⟩ := hcond
    have hd2 : 0 < d / 2 := by omega
    obtain ⟨ih1, ih2, ih3, ih4⟩ := ih hd2
    rw [mrDecomp, if_pos ⟨hev, hdpos⟩]
    refine ⟨ih1, ih2, ?_, by omega⟩
    have hsub : (mrDecomp (r + 1) (d / 2)).1 - r =
        ((mrDecomp (r + 1) (d / 2)).1 - (r + 1)) + 1 := by omega
    rw [hsub, pow_succ]
    calc 2 ^ ((mrDecomp (r + 1) (d / 2)).1 - (r + 1)) * 2 *
          (mrDecomp (r + 1) (d / 2)).2
        = 2 ^ ((mrDecomp (r + 1) (d / 2)).1 - (r + 1)) *
          (mrDecomp (r + 1) (d / 2)).2 * 2 := by ring
      _ = d / 2 * 2 := by rw [ih3]
      _ = d := by omega
  | case2 r d hcond =>
    rw [mrDecomp, if_neg hcond]
    refine ⟨hd, by omega, by simp, le_refl r⟩

theorem mrInner_true (n : ℕ) :
    ∀ k x j, 1 ≤ j → j ≤ k → x ^ (2 ^ j) % n = n - 1 →
      mrInner n k x = true := by
  intro k
  induction k with
  | zero => intro x j h1 h2; omega
  | succ k ih =>
    intro x j h1 h2 hj
    rw [mrInner]
    by_cases hx2 : x ^ 2 % n = n - 1
    · simp [hx2]
    · simp only [hx2, if_neg, Bool.if_false_left]
      have hj2 : 2 ≤ j := by
        rcases Nat.eq_or_lt_of_le h1 with h | h
        · exfalso
          rw [← h] at hj
          simp [pow_one] at hj
          exact hx2 hj
        · omega
      have hstep : (x ^ 2 % n) ^ (2 ^ (j - 1)) % n = n - 1 := by
        rw [← Nat.pow_mod, ← pow_mul]
        have h2j : 2 * 2 ^ (j - 1) = 2 ^ j := by
          rw [← pow_succ']
          congr 1
          omega
        rw [h2j]
        exact hj
      exact ih (x ^ 2 % n) (j - 1) (by omega) (by omega) hstep
theorem mrRound_prime (n : ℕ) (hn : n.Prime) (h5 : 5 ≤ n)
    (R D : ℕ) (hD : D % 2 = 1) (hRD : 2 ^ R * D = n - 1) (hR : 1 ≤ R)
    (a : ℕ) (ha2 : 2 ≤ a) (han : a ≤ n - 2) :
    mrRound n D R a = true := by
  haveI : Fact n.Prime := ⟨hn⟩
  have hu0 : (a : ZMod n) ≠ 0 := by
    rw [Ne, ZMod.natCast_zmod_eq_zero_iff_dvd]
    intro hdvd
    have := Nat.le_of_dvd (by omega) hdvd
    omega
  set v : ZMod n := (a : ZMod n) ^ D with hv
  have hvR : v ^ (2 ^ R) = 1 := by
    rw [hv, ← pow_mul, mul_comm D, hRD]
    exact ZMod.pow_card_sub_one_eq_one hu0
  have hex : ∃ j, v ^ (2 ^ j) = 1 := ⟨R, hvR⟩
  classical
  set j0 := Nat.find hex with hj0
  have hj0spec : v ^ (2 ^ j0) = 1 := Nat.find_spec hex
  have hj0min : ∀ j < j0, v ^ (2 ^ j) ≠ 1 := fun j hj => Nat.find_min hex hj
  have hj0R : j0 ≤ R := Nat.find_le hvR
  -- transfer helpers
  have hlt : ∀ y : ℕ, y % n < n := fun y => Nat.mod_lt _ (by omega)
  have hcast_eq : ∀ y c : ℕ, c < n → ((y % n : ℕ) : ZMod n) = (c : ZMod n) →
      y % n = c := by
    intro y c hc hyc
    have := (ZMod.natCast_eq_natCast_iff' _ _ _).mp hyc
    rwa [Nat.mod_mod_of_dvd y dvd_rfl, Nat.mod_eq_of_lt hc] at this
  rw [mrRound]
  by_cases hx : a ^ D % n = 1 ∨ a ^ D % n = n - 1
  · simp [hx]
  · simp only [if_neg hx]
    push_neg at hx
    obtain ⟨hx1, hxn1⟩ := hx
    have hj0pos : 1 ≤ j0 := by
      by_contra h0
      have hz : j0 = 0 := by omega
      rw [hz] at hj0spec
      simp only [pow_zero, pow_one] at hj0spec
      apply hx1
      apply hcast_eq _ 1 (by omega)
      rw [ZMod.natCast_mod]
      push_cast
      rw [← hv, hj0spec]
    have hsplit : 2 ^ (j0 - 1) + 2 ^ (j0 - 1) = 2 ^ j0 := by
      rw [← two_mul, ← pow_succ']
      congr 1
      omega
    have hw2 : v ^ (2 ^ (j0 - 1)) * v ^ (2 ^ (j0 - 1)) = 1 := by
      rw [← pow_add, hsplit, hj0spec]
    have hwne : v ^ (2 ^ (j0 - 1)) ≠ 1 := hj0min (j0 - 1) (by omega)
    have hwm1 : v ^ (2 ^ (j0 - 1)) = -1 := by
      rcases mul_self_eq_one_iff.mp hw2 with h | h
      · exact absurd h hwne
      · exact h
    have hn1cast : ((n - 1 : ℕ) : ZMod n) = -1 := by
      rw [Nat.cast_sub (by omega : 1 ≤ n), ZMod.natCast_self, zero_sub,
        Nat.cast_one]
    have hkey : a ^ (2 ^ (j0 - 1) * D) % n = n - 1 := by
      apply hcast_eq _ (n - 1) (by omega)
      rw [ZMod.natCast_mod, hn1cast]
      push_cast
      rw [mul_comm, pow_mul, ← hv]
      exact hwm1
    have hj0ge2 : 2 ≤ j0 := by
      by_contra hlt2
      have hone : j0 = 1 := by omega
      rw [hone] at hkey
      simp only [Nat.sub_self, pow_zero, one_mul] at hkey
      exact hxn1 hkey
    apply mrInner_true n (R - 1) (a ^ D % n) (j0 - 1) (by omega) (by omega)
    rw [← Nat.pow_mod, ← pow_mul, mul_comm D]
    exact hkey
/-- C10: the Miller-Rabin implementation never rejects a prime: for every
prime `n` and every list of random bases drawn from `[2, n-2]` (any number
of rounds), `is_probable_prime` returns `true`. -/
theorem is_probable_prime_complete (n : ℕ) (bases : List ℕ) (hn : n.Prime)
    (hb : ∀ a ∈ bases, 2 ≤ a ∧ a ≤ n - 2) :
    is_probable_prime bases n = true := by
  rw [is_probable_prime]
  have h2 := hn.two_le
  rw [if_neg (by omega)]
  by_cases h23 : n = 2 ∨ n = 3
  · rw [if_pos h23]
  · rw [if_neg h23]
    have h5 : 5 ≤ n := by
      rcases Nat.lt_or_ge n 5 with h | h
      · interval_cases n <;> first | omega | (exfalso; revert hn; decide)
      · exact h
    have hodd : n % 2 = 1 := by
      rcases Nat.even_or_odd n with he | ho
      · exfalso
        have := (Nat.Prime.even_iff hn).mp he
        omega
      · exact Nat.odd_iff.mp ho
    rw [if_neg (by omega)]
    show bases.all
      (fun a => mrRound n (mrDecomp 0 (n - 1)).2 (mrDecomp 0 (n - 1)).1 a) =
      true
    obtain ⟨hpos, hDodd, hprod, hge⟩ := mrDecomp_spec 0 (n - 1) (by omega)
    have hprod' : 2 ^ (mrDecomp 0 (n - 1)).1 * (mrDecomp 0 (n - 1)).2 =
        n - 1 := by simpa using hprod
    have hR1 : 1 ≤ (mrDecomp 0 (n - 1)).1 := by
      by_contra h0
      have hz : (mrDecomp 0 (n - 1)).1 = 0 := by omega
      rw [hz, pow_zero, one_mul] at hprod'
      omega
    simp only [List.all_eq_true]
    intro a ha
    obtain ⟨ha2, han⟩ := hb a ha
    exact mrRound_prime n hn h5 (mrDecomp 0 (n - 1)).1 (mrDecomp 0 (n - 1)).2
      hDodd hprod' hR1 a ha2 han

/-- C10 witness: the prime `97` with bases `[2, 3, 5, 7]`. -/
theorem is_probable_prime_complete_witness :
    is_probable_prime [2, 3, 5, 7] 97 = true :=
  is_probable_prime_complete 97 [2, 3, 5, 7] (by norm_num) (by decide)

/-! ### Claim C1: `small_exponent_attack` -/

theorem isCoprime_list_prod {c : ℤ} :
    ∀ {L : List ℤ}, (∀ x ∈ L, IsCoprime x c) → IsCoprime L.prod c := by
  intro L
  induction L with
  | nil => intro _; simpa using isCoprime_one_left
  | cons a t ih =>
    intro h
    rw [List.prod_cons]
    exact (h a (by simp)).mul_left (ih fun x hx => h x (by simp [hx]))

theorem pairwise_snd_mul_dvd :
    ∀ l : List (ℤ × ℤ),
      List.Pairwise (fun p q => p.2 * q.2 ∣ (l.map Prod.snd).prod) l := by
  intro l
  induction l with
  | nil => exact List.Pairwise.nil
  | cons a t ih =>
    rw [List.map_cons, List.prod_cons]
    refine List.Pairwise.cons ?_ (ih.imp fun h => h.mul_left _)
    intro q hq
    exact mul_dvd_mul_left a.2 (List.dvd_prod (List.mem_map_of_mem Prod.snd hq))

theorem crtSum_dvd (M d : ℤ) :
    ∀ (pairs : List (ℤ × ℤ)) (S : ℤ), crtSum M pairs = some S →
      (∀ p ∈ pairs, d ∣ Int.fdiv M p.2) → d ∣ S := by
  intro pairs
  induction pairs with
  | nil =>
    intro S hS _
    rw [crtSum] at hS
    cases hS
    exact dvd_zero d
  | cons a t ih =>
    intro S hS hdvd
    rw [crtSum] at hS
    rcases hmi : modinv (Int.fdiv M a.2) a.2 with _ | inv <;> rw [hmi] at hS
    · exact absurd hS (by simp)
    rcases hrest : crtSum M t with _ | S' <;> rw [hrest] at hS
    · exact absurd hS (by simp)
    simp only [Option.some.injEq] at hS
    subst hS
    refine dvd_add ?_ (ih S' hrest fun p hp => hdvd p (by simp [hp]))
    have h1 : d ∣ Int.fdiv M a.2 := hdvd a (by simp)
    exact (h1.mul_left a.1).mul_right inv
theorem crtSum_spec (M : ℤ) :
    ∀ (pairs : List (ℤ × ℤ)),
      (∀ p ∈ pairs, 0 < p.2 ∧ Int.gcd (Int.fdiv M p.2) p.2 = 1) →
      List.Pairwise (fun p q => p.2 ∣ Int.fdiv M q.2 ∧ q.2 ∣ Int.fdiv M p.2)
        pairs →
      ∃ S, crtSum M pairs = some S ∧ ∀ p ∈ pairs, S ≡ p.1 [ZMOD p.2] := by
  intro pairs
  induction pairs with
  | nil =>
    intro _ _
    exact ⟨0, by rw [crtSum], by simp⟩
  | cons a t ih =>
    intro h hpw
    obtain ⟨hpos, hgcd⟩ := h a (by simp)
    obtain ⟨inv, hinv, _, _, hmul⟩ := modinv_spec hpos hgcd
    obtain ⟨S', hS', hcong⟩ := ih (fun p hp => h p (by simp [hp])) hpw.of_cons
    refine ⟨a.1 * Int.fdiv M a.2 * inv + S', ?_, ?_⟩
    · rw [crtSum, hinv, hS']
    · intro p hp
      rcases List.mem_cons.mp hp with rfl | hp
      · have hdvdS' : p.2 ∣ S' :=
          crtSum_dvd M p.2 t S' hS'
            fun q hq => ((List.pairwise_cons.mp hpw).1 q hq).1
        have h1 : p.1 * Int.fdiv M p.2 * inv ≡ p.1 [ZMOD p.2] := by
          have h0 := Int.ModEq.mul_left p.1 hmul
          calc p.1 * Int.fdiv M p.2 * inv
              = p.1 * (Int.fdiv M p.2 * inv) := by ring
            _ ≡ p.1 * 1 [ZMOD p.2] := h0
            _ = p.1 := by ring
        have h2 : S' ≡ 0 [ZMOD p.2] := Int.modEq_zero_iff_dvd.mpr hdvdS'
        calc p.1 * Int.fdiv M p.2 * inv + S' ≡ p.1 + 0 [ZMOD p.2] := h1.add h2
          _ = p.1 := by ring
      · have hhead : a.1 * Int.fdiv M a.2 * inv ≡ 0 [ZMOD p.2] := by
          apply Int.modEq_zero_iff_dvd.mpr
          have hd : p.2 ∣ Int.fdiv M a.2 := ((List.pairwise_cons.mp hpw).1 p hp).2
          exact (hd.mul_left a.1).mul_right inv
        calc a.1 * Int.fdiv M a.2 * inv + S' ≡ 0 + p.1 [ZMOD p.2] :=
            hhead.add (hcong p hp)
          _ = p.1 := by ring
theorem prod_dvd_of_pairwise_coprime (z : ℤ) :
    ∀ l : List (ℤ × ℤ), List.Pairwise (fun p q => Int.gcd p.2 q.2 = 1) l →
      (∀ p ∈ l, p.2 ∣ z) → (l.map Prod.snd).prod ∣ z := by
  intro l
  induction l with
  | nil => simp
  | cons a t ih =>
    intro hpw hdvd
    rw [List.map_cons, List.prod_cons]
    have hcop : IsCoprime a.2 (t.map Prod.snd).prod := by
      apply IsCoprime.symm
      apply isCoprime_list_prod
      intro x hx
      obtain ⟨q, hq, rfl⟩ := List.mem_map.mp hx
      exact (Int.isCoprime_iff_gcd_eq_one.mpr
        ((List.pairwise_cons.mp hpw).1 q hq)).symm
    exact hcop.mul_dvd (hdvd a (by simp))
      (ih hpw.of_cons fun p hp => hdvd p (by simp [hp]))

theorem pow_length_lt_prod (m : ℤ) (hm : 0 ≤ m) :
    ∀ l : List (ℤ × ℤ), l ≠ [] → (∀ p ∈ l, m < p.2) →
      m ^ l.length < (l.map Prod.snd).prod := by
  intro l
  induction l with
  | nil => intro h; exact absurd rfl h
  | cons a t ih =>
    intro _ hlt
    rcases eq_or_ne t [] with rfl | hne
    · simpa using hlt a (by simp)
    · have hIH := ih hne fun p hp => hlt p (by simp [hp])
      rw [List.length_cons, List.map_cons, List.prod_cons]
      have hprodpos : 0 < (t.map Prod.snd).prod := by
        apply List.prod_pos
        intro x hx
        obtain ⟨q, hq, rfl⟩ := List.mem_map.mp hx
        have := hlt q (by simp [hq])
        omega
      have ha : m < a.2 := hlt a (by simp)
      calc m ^ (t.length + 1) = m * m ^ t.length := by ring
        _ ≤ m * (t.map Prod.snd).prod :=
            mul_le_mul_of_nonneg_left (le_of_lt hIH) hm
        _ < a.2 * (t.map Prod.snd).prod := mul_lt_mul_of_pos_right ha hprodpos
theorem fdiv_prod_pairwise (l : List (ℤ × ℤ)) (hpos : ∀ q ∈ l, 0 < q.2) :
    List.Pairwise (fun p q => p.2 ∣ Int.fdiv ((l.map Prod.snd).prod) q.2 ∧
      q.2 ∣ Int.fdiv ((l.map Prod.snd).prod) p.2) l := by
  refine (pairwise_snd_mul_dvd l).imp_of_mem ?_
  intro p q hpmem hqmem hdvd
  have hpne : p.2 ≠ 0 := ne_of_gt (hpos p hpmem)
  have hqne : q.2 ≠ 0 := ne_of_gt (hpos q hqmem)
  constructor
  · obtain ⟨t, ht⟩ := List.dvd_prod (List.mem_map_of_mem Prod.snd hqmem)
    rw [ht, Int.mul_fdiv_cancel_left _ hqne]
    rw [ht] at hdvd
    have h2 : q.2 * p.2 ∣ q.2 * t := by
      have : p.2 * q.2 = q.2 * p.2 := mul_comm _ _
      rwa [this] at hdvd
    exact (mul_dvd_mul_iff_left hqne).mp h2
  · obtain ⟨t, ht⟩ := List.dvd_prod (List.mem_map_of_mem Prod.snd hpmem)
    rw [ht, Int.mul_fdiv_cancel_left _ hpne]
    rw [ht] at hdvd
    have h2 : p.2 * q.2 ∣ p.2 * t := hdvd
    exact (mul_dvd_mul_iff_left hpne).mp h2

theorem gcd_fdiv_prod_of_mem (l : List (ℤ × ℤ)) (hpos : ∀ q ∈ l, 0 < q.2)
    (hpw : List.Pairwise (fun p q => Int.gcd p.2 q.2 = 1) l) :
    ∀ p ∈ l, Int.gcd (Int.fdiv ((l.map Prod.snd).prod) p.2) p.2 = 1 := by
  intro p hp
  obtain ⟨l1, l2, rfl⟩ := List.append_of_mem hp
  have hpne : p.2 ≠ 0 := ne_of_gt (hpos p hp)
  have hM : ((l1 ++ p :: l2).map Prod.snd).prod =
      p.2 * ((l1.map Prod.snd).prod * (l2.map Prod.snd).prod) := by
    rw [List.map_append, List.prod_append, List.map_cons, List.prod_cons]
    ring
  rw [hM, Int.mul_fdiv_cancel_left _ hpne]
  rw [← Int.isCoprime_iff_gcd_eq_one]
  obtain ⟨hpw1, hpw2, hrel⟩ := List.pairwise_append.mp hpw
  apply IsCoprime.mul_left
  · apply isCoprime_list_prod
    intro x hx
    obtain ⟨q, hq, rfl⟩ := List.mem_map.mp hx
    exact Int.isCoprime_iff_gcd_eq_one.mpr (hrel q hq p (by simp))
  · apply isCoprime_list_prod
    intro x hx
    obtain ⟨q, hq, rfl⟩ := List.mem_map.mp hx
    exact (Int.isCoprime_iff_gcd_eq_one.mpr
      ((List.pairwise_cons.mp hpw2).1 q hq)).symm
/-- C1: for `e ≥ 1`, a plaintext `m ≥ 0`, and at least `e` pairs
`(n_i, c_i)` whose first `e` moduli are pairwise coprime, with `m` below
each of those moduli and `c_i = m^e mod n_i`, the broadcast attack
returns exactly `m` (for every float-estimate oracle value). -/
theorem small_exponent_attack_correct (xhat e m : ℕ) (cts : List (ℤ × ℤ))
    (he : 1 ≤ e) (hlen : e ≤ cts.length)
    (hcop : List.Pairwise (fun s t => Int.gcd s.1 t.1 = 1) (cts.take e))
    (hm : ∀ t ∈ cts.take e, (m : ℤ) < t.1)
    (hc : ∀ t ∈ cts.take e, t.2 = (m : ℤ) ^ e % t.1) :
    small_exponent_attack xhat cts e = Except.ok (some (m : ℤ)) := by
  have hlenf : (cts.take e).length = e := by
    rw [List.length_take]
    omega
  have hpos : ∀ t ∈ cts.take e, 0 < t.1 := fun t ht =>
    lt_of_le_of_lt (by positivity) (hm t ht)
  rw [small_exponent_attack, if_neg (by omega)]
  have hguard : pairwiseCoprimeFirst cts e = true := by
    rw [pairwiseCoprimeFirst]
    simp only [List.all_eq_true, List.mem_range]
    intro i hi
    intro j hj
    by_cases hij : i < j
    · have hilen : i < cts.length := by omega
      have hjlen : j < cts.length := by omega
      have hitake : i < (cts.take e).length := by omega
      have hjtake : j < (cts.take e).length := by omega
      simp only [List.getD_eq_getElem _ _ hilen, List.getD_eq_getElem _ _ hjlen]
      have hrel := List.pairwise_iff_getElem.mp hcop i j hitake hjtake hij
      simp only [List.getElem_take] at hrel
      have hmemi : cts[i] ∈ cts.take e := by
        have h0 : (cts.take e)[i] ∈ cts.take e := by
          apply List.getElem_mem
        rwa [List.getElem_take] at h0
      have hmemj : cts[j] ∈ cts.take e := by
        have h0 : (cts.take e)[j] ∈ cts.take e := by
          apply List.getElem_mem
        rwa [List.getElem_take] at h0
      have hg : gcd cts[i].1 cts[j].1 = 1 := by
        rw [gcd_eq_of_nonneg (le_of_lt (hpos _ hmemi)) (le_of_lt (hpos _ hmemj)),
          hrel]
        norm_num
      simp [hij, hg]
    · simp [hij]
  rw [if_neg (by rw [hguard]; exact not_not_intro rfl)]
  -- the zipped pair list with modulus in the second component
  have hzip : (((cts.take e).map Prod.snd).zip ((cts.take e).map Prod.fst)) =
      (cts.take e).map (fun t => (t.2, t.1)) := by
    rw [List.zip_map']
  have hsndmap : (((cts.take e).map (fun t => (t.2, t.1))).map Prod.snd) =
      (cts.take e).map Prod.fst := by
    rw [List.map_map]
    rfl
  have hpos' : ∀ p ∈ (cts.take e).map (fun t => (t.2, t.1)), 0 < p.2 := by
    intro p hp
    obtain ⟨t, ht, rfl⟩ := List.mem_map.mp hp
    exact hpos t ht
  have hcop' : List.Pairwise (fun p q => Int.gcd p.2 q.2 = 1)
      ((cts.take e).map (fun t => (t.2, t.1))) := by
    rw [List.pairwise_map]
    exact hcop
  have hMfold : ((cts.take e).map Prod.fst).foldl (· * ·) 1 =
      (((cts.take e).map (fun t => (t.2, t.1))).map Prod.snd).prod := by
    rw [hsndmap, List.prod_eq_foldl]
  obtain ⟨S, hS, hScong⟩ := crtSum_spec
    (((cts.take e).map Prod.fst).foldl (· * ·) 1)
    ((cts.take e).map (fun t => (t.2, t.1)))
    (fun p hp => ⟨hpos' p hp, by
      rw [hMfold]
      exact gcd_fdiv_prod_of_mem _ hpos' hcop' p hp⟩)
    (by rw [hMfold]; exact fdiv_prod_pairwise _ hpos')
  have hcrt : crt ((cts.take e).map Prod.snd) ((cts.take e).map Prod.fst) =
      some (Int.fmod S (((cts.take e).map Prod.fst).foldl (· * ·) 1)) := by
    rw [crt]
    simp only [hzip, hS]
    rfl
  rw [hcrt]
  set M := ((cts.take e).map Prod.fst).foldl (· * ·) 1 with hMdef
  have hMpos : 0 < M := by
    rw [hMfold]
    apply List.prod_pos
    intro x hx
    obtain ⟨q, hq, rfl⟩ := List.mem_map.mp hx
    exact hpos' q hq
  have hx0 : 0 ≤ Int.fmod S M := Int.fmod_nonneg' S hMpos
  have hxM : Int.fmod S M < M := Int.fmod_lt_of_pos S hMpos
  have hxcong : ∀ p ∈ (cts.take e).map (fun t => (t.2, t.1)),
      Int.fmod S M ≡ (m : ℤ) ^ e [ZMOD p.2] := by
    intro p hp
    obtain ⟨t, ht, rfl⟩ := List.mem_map.mp hp
    have h1 : Int.fmod S M ≡ S [ZMOD M] := by
      rw [Int.fmod_eq_emod _ (le_of_lt hMpos), Int.ModEq]
      exact Int.emod_emod_of_dvd S dvd_rfl
    have hdvd : t.1 ∣ M := by
      rw [hMfold]
      exact List.dvd_prod (List.mem_map_of_mem Prod.snd hp)
    have h2 := h1.of_dvd hdvd
    have h3 := hScong (t.2, t.1) hp
    have h4 : t.2 ≡ (m : ℤ) ^ e [ZMOD t.1] := by
      rw [hc t ht, Int.ModEq]
      exact Int.emod_emod_of_dvd _ dvd_rfl
    exact h2.trans (h3.trans h4)
  have hme : (m : ℤ) ^ e < M := by
    rw [hMfold]
    have hlen' : ((cts.take e).map (fun t => (t.2, t.1))).length = e := by
      rw [List.length_map, hlenf]
    have hne : (cts.take e).map (fun t => (t.2, t.1)) ≠ [] := by
      intro hnil
      rw [hnil] at hlen'
      simp at hlen'
      omega
    have := pow_length_lt_prod (m : ℤ) (by positivity)
      ((cts.take e).map (fun t => (t.2, t.1))) hne
      (by
        intro p hp
        obtain ⟨t, ht, rfl⟩ := List.mem_map.mp hp
        exact hm t ht)
    rwa [hlen'] at this
  have hxeq : Int.fmod S M = (m : ℤ) ^ e := by
    have hdvdall : ∀ p ∈ (cts.take e).map (fun t => (t.2, t.1)),
        p.2 ∣ ((m : ℤ) ^ e - Int.fmod S M) := by
      intro p hp
      exact (hxcong p hp).dvd
    have hMdvd : M ∣ ((m : ℤ) ^ e - Int.fmod S M) := by
      nth_rewrite 1 [hMfold]
      exact prod_dvd_of_pairwise_coprime _ _ hcop' hdvdall
    obtain ⟨c, hc2⟩ := hMdvd
    have hc0 : c = 0 := by
      rcases lt_trichotomy c 0 with h | h | h
      · have : M * c ≤ M * (-1) := by
          apply mul_le_mul_of_nonneg_left (by omega) (le_of_lt hMpos)
        have hpow : (0 : ℤ) ≤ (m : ℤ) ^ e := by positivity
        omega
      · exact h
      · have : M * 1 ≤ M * c := by
          apply mul_le_mul_of_nonneg_left (by omega) (le_of_lt hMpos)
        have hpow : (0 : ℤ) ≤ (m : ℤ) ^ e := by positivity
        omega
    rw [hc0, mul_zero] at hc2
    omega
  show (if Int.fmod S M < 0 then Except.error () else
    match integer_nth_root xhat (Int.fmod S M).toNat e with
    | none => Except.error ()
    | some (r, ex) => Except.ok (if ex then some (r : ℤ) else none)) =
    Except.ok (some (m : ℤ))
  rw [if_neg (by omega)]
  have hxt : (Int.fmod S M).toNat = m ^ e := by
    rw [hxeq, ← Nat.cast_pow, Int.toNat_natCast]
  rw [hxt]
  obtain ⟨r, ex, hroot, h1, h2, h3⟩ := integer_nth_root_spec xhat (m ^ e) e he
  rw [hroot]
  have hrm : r = m := by
    by_contra hne
    rcases Nat.lt_or_ge r m with hlt | hge
    · have hle : (r + 1) ^ e ≤ m ^ e := Nat.pow_le_pow_left (by omega) e
      omega
    · have hgt : m < r := by omega
      have hlt2 : m ^ e < r ^ e := Nat.pow_lt_pow_left hgt (by omega)
      omega
  subst hrm
  have hex : ex = true := h3.mpr rfl
  rw [hex]
  rfl
/-- C1 witness: moduli `187, 299, 5183` (pairwise coprime), `e = 3`,
`m = 42`. -/
theorem small_exponent_attack_correct_witness :
    small_exponent_attack 0 [((187 : ℤ), (36 : ℤ)), (299, 235), (5183, 1526)] 3 =
      Except.ok (some ((42 : ℕ) : ℤ)) :=
  small_exponent_attack_correct 0 3 42 [(187, 36), (299, 235), (5183, 1526)]
    (by norm_num) (by norm_num) (by decide) (by decide) (by decide)

end RSAResearch
